import Mathlib

/-!
Verification model of the react-hydra-builder incremental build orchestrator.

The TypeScript sources are embedded shallowly:

* `metadata.ts` — the naming resolver (`extractComponentName`,
  `toScriptFileName`, `toScriptPath`), the registry persistence
  (`generateMetadataFile`, `ComponentResolver.loadMetadata`) and the runtime
  lookup (`ComponentResolver.resolveScriptPath`).
* `index.ts` — the watch orchestrator: the `fs.watch` callback of
  `watchBuild` (classification via `isBuild`, the per-file lock, the
  deletion cleanup `deleteBuildedPageJsFile`, the bundler invocation
  `_build` / `toOutFile`).

Strings are modelled as Lean `String`s over their `List Char` data; paths are
POSIX style (no backslashes), and `node:path` helpers (`basename`, `join`,
`relative`) are modelled for the relative, slash-separated paths the
orchestrator feeds them.  JavaScript string `replace` with a string pattern
replaces the first occurrence only, which `replaceFirstL` mirrors.
-/

/-- One step of `String.replace`-style first-occurrence replacement with the
empty string, over character lists: remove the first occurrence of `pat`.
Mirrors JavaScript `s.replace(pat, "")` for a string pattern `pat`. -/
def replaceFirstL (pat : List Char) : List Char → List Char
  | [] => []
  | c :: rest =>
    if pat.isPrefixOf (c :: rest) then (c :: rest).drop pat.length
    else c :: replaceFirstL pat rest

/-- JavaScript `s.replace(pat, "")` on strings (first occurrence only). -/
def replaceFirstStr (pat s : String) : String :=
  String.mk (replaceFirstL pat.data s.data)

/-- JavaScript `String.prototype.split` with a single-character separator
class, keeping empty segments, over character lists (kernel-computable model
of the `split` calls in `metadata.ts`). -/
def splitL (p : Char → Bool) : List Char → List (List Char)
  | [] => [[]]
  | c :: rest =>
    if p c then [] :: splitL p rest
    else
      match splitL p rest with
      | w :: ws => (c :: w) :: ws
      | [] => [[c]]

/-- `Array.prototype.join(sep)`. -/
def joinSep (sep : String) : List String → String
  | [] => ""
  | [x] => x
  | x :: xs => x ++ sep ++ joinSep sep xs

/-- JavaScript `String.prototype.endsWith`. -/
def endsWithStr (s post : String) : Bool :=
  post.data.isSuffixOf s.data

/-- Remove the last `n` characters (stripping a matched suffix). -/
def dropRightStr (s : String) (n : Nat) : String :=
  String.mk (s.data.take (s.data.length - n))

/-- `node:path` `basename` over character lists: strip trailing slashes, then
keep what follows the last remaining slash.  Faithful for the non-empty,
not-all-slashes file paths the orchestrator uses. -/
def basenameL (s : List Char) : List Char :=
  ((s.reverse.dropWhile (fun c => c = '/')).takeWhile (fun c => ¬ (c = '/'))).reverse

/-- `node:path` `basename` on strings. -/
def basename (s : String) : String :=
  String.mk (basenameL s.data)

/-- The slash-separated segments of a path, with empty and `.` segments
dropped (as `path.normalize` does). -/
def segsOf (s : String) : List String :=
  ((splitL (fun c => c = '/') s.data).map String.mk).filter (fun seg => ¬ (seg = "" ∨ seg = "."))

/-- One step of `..` resolution over a reversed segment stack. -/
def normStep (acc : List String) (seg : String) : List String :=
  if seg = ".." then
    match acc with
    | [] => [".."]
    | a :: rest => if a = ".." then seg :: acc else rest
  else seg :: acc

/-- Normalised segments of a path (`path.normalize` on a relative path). -/
def pathNormSegs (s : String) : List String :=
  ((segsOf s).foldl normStep []).reverse

/-- `path.normalize` for relative POSIX paths. -/
def pathNormalize (s : String) : String :=
  joinSep "/" (pathNormSegs s)

/-- `path.relative(".", p)` for a relative path `p`: resolving both against
the working directory and taking the difference normalises `p`. -/
def relativeFromDot (p : String) : String :=
  pathNormalize p

/-- `path.join(a, b)`: concatenate with a separator and normalise. -/
def joinPath (a b : String) : String :=
  pathNormalize (a ++ "/" ++ b)

/-- Length of the common prefix of two segment lists. -/
def commonPrefixLen : List String → List String → Nat
  | a :: as, b :: bs => if a = b then commonPrefixLen as bs + 1 else 0
  | _, _ => 0

/-- `path.relative(base, p)` for relative POSIX paths: pop the common prefix,
then climb with `..` and descend into the remainder. -/
def relativePath (base p : String) : String :=
  let bs := pathNormSegs base
  let ps := pathNormSegs p
  let n := commonPrefixLen bs ps
  joinSep "/" (List.replicate (bs.length - n) ".." ++ ps.drop n)

/-- JavaScript `word.charAt(0).toUpperCase() + word.slice(1).toLowerCase()`
for the ASCII identifiers the builder handles. -/
def capitalizeWord (w : String) : String :=
  match w.data with
  | [] => ""
  | c :: rest => String.mk (c.toUpper :: rest.map Char.toLower)

/-- JavaScript `baseName.split(/[.\-_]/)` (empty segments kept), each segment
capitalised, then concatenated. -/
def pascalJoin (s : String) : String :=
  String.join (((splitL (fun c => c = '.' ∨ c = '-' ∨ c = '_') s.data).map String.mk).map capitalizeWord)

/-- The hardcoded suffix strip of `extractComponentName`:
`fileName.replace(/\.page\.(tsx|ts)$/, "")`.  The regex is anchored at the
end of the string, so it removes a final `.page.tsx` or `.page.ts`. -/
def stripPageExt (fileName : String) : String :=
  if endsWithStr fileName ".page.tsx" then dropRightStr fileName 9
  else if endsWithStr fileName ".page.ts" then dropRightStr fileName 8
  else fileName

/-- `metadata.ts` `extractComponentName`: base name, hardcoded
`.page.tsx`/`.page.ts` strip, PascalCase over `.`/`-`/`_`, plus `Page`. -/
def extractComponentName (filePath : String) : String :=
  pascalJoin (stripPageExt (basename filePath)) ++ "Page"

/-- The reference computation of claim C5, following the spec's words: take
`basename(p)`, strip the *configured* suffix, split on `.`, `-`, `_`,
capitalise each segment, concatenate and append `Page`. -/
def specComponentName (p sfx : String) : String :=
  let fileName := basename p
  let baseName :=
    if endsWithStr fileName sfx then dropRightStr fileName sfx.length else fileName
  pascalJoin baseName ++ "Page"

/-- `metadata.ts` `toScriptFileName`: strip the first occurrence of the
configured suffix from the base name and append `page.js`. -/
def toScriptFileName (filePath suffix : String) : String :=
  replaceFirstStr suffix (basename filePath) ++ "page.js"

/-- `metadata.ts` `toScriptPath`: strip the first occurrence of the
configured suffix from the project-root-relative path and append `page.js`
under `outputDir`, keeping the directory structure. -/
def toScriptPath (outputDir originalPath suffix : String) : String :=
  outputDir ++ "/" ++ replaceFirstStr suffix (relativeFromDot originalPath) ++ "page.js"

/-- One registry entry (`ComponentMetadata`'s value type in `types.ts`). -/
structure RegEntry where
  scriptFileName : String
  originalPath : String
  outputPath : String
deriving DecidableEq

/-- The in-memory registry: a JavaScript object keyed by component name,
modelled as an insertion-ordered association list with unique keys. -/
def lookupMeta (k : String) : List (String × RegEntry) → Option RegEntry
  | [] => none
  | (k', v) :: rest => if k' = k then some v else lookupMeta k rest

/-- JavaScript `delete metadata[k]`. -/
def eraseMeta (k : String) : List (String × RegEntry) → List (String × RegEntry)
  | [] => []
  | (k', v) :: rest => if k' = k then rest else (k', v) :: eraseMeta k rest

/-- JavaScript `metadata[k] = v`: overwrite in place, or append when new. -/
def upsertMeta (k : String) (v : RegEntry) : List (String × RegEntry) → List (String × RegEntry)
  | [] => [(k, v)]
  | (k', v') :: rest => if k' = k then (k, v) :: rest else (k', v') :: upsertMeta k v rest

/-- The message of the `Error` thrown by `ComponentResolver.resolveScriptPath`
when a component is absent from the loaded registry. -/
def resolveErrorMessage (componentName : String) : String :=
  "コンポーネント \"" ++ componentName ++ "\" のメタデータが見つかりません。ビルドが完了していることを確認してください。"

/-- `ComponentResolver.resolveScriptPath`, over the registry that
`loadMetadata` produced for the metadata path: return the entry's
`scriptFileName`, or throw (model: `Except.error`) an error naming the
missing component.  The function has no strictness parameter. -/
def resolveScriptPath (componentName : String) (metadata : List (String × RegEntry)) :
    Except String String :=
  match lookupMeta componentName metadata with
  | some e => Except.ok e.scriptFileName
  | none => Except.error (resolveErrorMessage componentName)

/-- The slice of `fs.Stats` the orchestrator inspects. -/
structure Stats where
  isDirectory : Bool
deriving DecidableEq

/-- `PageBuildConfig` of `index.ts`. -/
structure PageBuildConfig where
  buildTargetDir : String
  buildTargetFileSuffix : String
  outputDir : String
  metadataPath : String
deriving DecidableEq

/-- The filesystem responses one watch event observes: the `statSync` result
for the event's full path, the bundler outcome, and the `statSync` result for
the previously produced bundle (used by the deletion cleanup). -/
structure WatchEnv where
  stat : Option Stats
  buildOk : Bool
  outStat : Option Stats
deriving DecidableEq

/-- The externally visible effects one watch event performs, in order. -/
inductive FsAction where
  | invokeBundler (outfile importPath : String)
  | persistMetadata (metadata : List (String × RegEntry)) (path : String)
  | deleteFile (path : String)
  | deleteDirRec (path : String)
deriving DecidableEq

/-- The orchestrator's mutable state: the in-memory registry object and the
per-file lock map (`lockMap`, represented by the set of file names currently
mapped to `true`). -/
structure WState where
  metadata : List (String × RegEntry)
  locks : List String
deriving DecidableEq

/-- `index.ts` `toOutFile(dir, path, suffix)`: flat output path from the base
name with the first occurrence of the suffix removed. -/
def toOutFile (dir path suffix : String) : String :=
  dir ++ "/" ++ replaceFirstStr suffix (basename path) ++ "page.js"

/-- The stdin import path `_build` synthesises:
`./` + `relative(".", path)` (backslashes are irrelevant on POSIX). -/
def importPathOf (path : String) : String :=
  "./" ++ relativeFromDot path

/-- `index.ts` `isBuild`: the current classification ignores `eventType` and
looks only at the stat result, directory-ness and the suffix. -/
def isBuild (eventType fileName : String) (stats : Option Stats)
    (buildTargetFileSuffix : String) : Bool :=
  match stats with
  | none => false
  | some st =>
    if st.isDirectory then false
    else if ¬ (endsWithStr fileName buildTargetFileSuffix) then false
    else true

/-- `index.ts` `deleteBuildedPageJsFile`: stat the previously produced bundle;
missing is a no-op, a directory is removed recursively, a file is unlinked.
Deletion errors are logged and swallowed, so no error surfaces. -/
def deleteBuildedPageJsFile (outStat : Option Stats)
    (filePath buildTargetFileSuffix outputDir : String) : List FsAction :=
  let path := toOutFile outputDir filePath buildTargetFileSuffix
  match outStat with
  | none => []
  | some st => if st.isDirectory then [FsAction.deleteDirRec path] else [FsAction.deleteFile path]

/-- The `fs.watch` callback of `watchBuild`, one event run to completion:
lock check, `statSync` classification, deletion branch or build branch, and
the `finally` that releases the lock.  The returned `Bool` is `true` when the
handler ends with a propagating bundler error.  The cooperative interleaving
of two in-flight events is represented by running the handler against a state
whose `locks` already holds the other event's file name. -/
def handleEvent (cfg : PageBuildConfig) (env : WatchEnv) (s : WState)
    (eventType : String) (filename : Option String) : WState × List FsAction × Bool :=
  match filename with
  | none => (s, [], false)
  | some filename =>
    if s.locks.contains filename then
      -- lock() found lockMap true: isLock = false, the handler returns and
      -- its Symbol.dispose leaves lockMap untouched — the event is dropped.
      (s, [], false)
    else
      -- lock acquired: lockMap.set(filename, true)
      let locks1 := filename :: s.locks
      let fullPath := joinPath cfg.buildTargetDir filename
      match env.stat with
      | none =>
        -- the watched file is gone: deletion branch
        let step :=
          if endsWithStr filename cfg.buildTargetFileSuffix then
            let componentName := extractComponentName fullPath
            match lookupMeta componentName s.metadata with
            | some _ =>
              let md := eraseMeta componentName s.metadata
              (md, [FsAction.persistMetadata md cfg.metadataPath])
            | none => (s.metadata, [])
          else (s.metadata, [])
        let acts := step.2 ++ deleteBuildedPageJsFile env.outStat fullPath
          cfg.buildTargetFileSuffix cfg.outputDir
        (⟨step.1, locks1.erase filename⟩, acts, false)
      | some st =>
        if ¬ isBuild eventType filename (some st) cfg.buildTargetFileSuffix then
          (⟨s.metadata, locks1.erase filename⟩, [], false)
        else
          let buildAct := FsAction.invokeBundler
            (toOutFile cfg.outputDir fullPath cfg.buildTargetFileSuffix)
            (importPathOf fullPath)
          if ¬ env.buildOk then
            -- esbuild rejected: the registry update is skipped, the finally
            -- still releases the lock, and the error propagates unchanged
            (⟨s.metadata, locks1.erase filename⟩, [buildAct], true)
          else
            let componentName := extractComponentName fullPath
            match lookupMeta componentName s.metadata with
            | some _ => (⟨s.metadata, locks1.erase filename⟩, [buildAct], false)
            | none =>
              let entry : RegEntry :=
                { scriptFileName := toScriptFileName fullPath cfg.buildTargetFileSuffix
                  originalPath := relativePath cfg.buildTargetDir fullPath
                  outputPath := toScriptPath cfg.outputDir fullPath cfg.buildTargetFileSuffix }
              let md := upsertMeta componentName entry s.metadata
              (⟨md, locks1.erase filename⟩,
                [buildAct, FsAction.persistMetadata md cfg.metadataPath], false)

/-- The lock release an in-flight handler performs in its `finally`
(`lockMap.set(fileName, false)`), as a step on the shared state. -/
def releaseLock (fileName : String) (s : WState) : WState :=
  ⟨s.metadata, s.locks.erase fileName⟩

/-- The `FsAction.persistMetadata` entries of a trace. -/
def persistsOf : List FsAction → List (List (String × RegEntry) × String)
  | [] => []
  | FsAction.persistMetadata m p :: rest => (m, p) :: persistsOf rest
  | _ :: rest => persistsOf rest

/-- The `FsAction.invokeBundler` entries of a trace. -/
def buildsOf : List FsAction → List (String × String)
  | [] => []
  | FsAction.invokeBundler o i :: rest => (o, i) :: buildsOf rest
  | _ :: rest => buildsOf rest

/-- An opening brace character (ASCII 123). -/
def lbrace : Char := Char.ofNat 123

/-- A closing brace character (ASCII 125). -/
def rbrace : Char := Char.ofNat 125

/-- Lowercase hexadecimal digit, as `Number.prototype.toString(16)` emits. -/
def hexDigitChar (n : Nat) : Char :=
  if n < 10 then Char.ofNat (48 + n) else Char.ofNat (87 + n)

/-- `JSON.stringify`'s escaping of one string character: `"` and `\` get a
backslash, the five control characters with short escapes use them, the
remaining control characters become `\u00xx`, everything else is literal. -/
def escChar (c : Char) : List Char :=
  if c = '"' then ['\\', '"']
  else if c = '\\' then ['\\', '\\']
  else if c = Char.ofNat 8 then ['\\', 'b']
  else if c = Char.ofNat 9 then ['\\', 't']
  else if c = Char.ofNat 10 then ['\\', 'n']
  else if c = Char.ofNat 12 then ['\\', 'f']
  else if c = Char.ofNat 13 then ['\\', 'r']
  else if c.toNat < 32 then
    ['\\', 'u', '0', '0', hexDigitChar (c.toNat / 16), hexDigitChar (c.toNat % 16)]
  else [c]

/-- A JSON string literal for `s`. -/
def quoteL (s : List Char) : List Char :=
  '"' :: (s.flatMap escChar ++ ['"'])

/-- One `"key": "value"` line of an inner object, at indentation 4. -/
def fieldL (key value : String) : List Char :=
  [' ', ' ', ' ', ' '] ++ quoteL key.data ++ [':', ' '] ++ quoteL value.data

/-- The `JSON.stringify(entry, null, 2)` rendering of one registry entry as it
appears nested at depth 1 of the metadata document. -/
def entryJsonL (e : RegEntry) : List Char :=
  [lbrace, '\n'] ++ fieldL "scriptFileName" e.scriptFileName ++ [',', '\n'] ++
    fieldL "originalPath" e.originalPath ++ [',', '\n'] ++
    fieldL "outputPath" e.outputPath ++ ['\n', ' ', ' ', rbrace]

/-- One `"componentName": { … }` member line of the top-level object. -/
def memberL (kv : String × RegEntry) : List Char :=
  [' ', ' '] ++ quoteL kv.1.data ++ [':', ' '] ++ entryJsonL kv.2

/-- The top-level members joined by `,\n`. -/
def membersL : List (String × RegEntry) → List Char
  | [] => []
  | [kv] => memberL kv
  | kv :: rest => memberL kv ++ [',', '\n'] ++ membersL rest

/-- `metadata.ts` `generateMetadataFile`: the exact content written to the
metadata path, `JSON.stringify(metadata, null, 2)` (the `mkdir`/`writeFile`
calls carry this string; the registry argument is a JavaScript object, hence
insertion-ordered with unique keys). -/
def generateMetadataFile (metadata : List (String × RegEntry)) : String :=
  match metadata with
  | [] => String.mk [lbrace, rbrace]
  | _ => String.mk ([lbrace, '\n'] ++ membersL metadata ++ ['\n', rbrace])

/-- JSON insignificant whitespace. -/
def isJsonWs (c : Char) : Bool :=
  c = ' ' ∨ c = Char.ofNat 9 ∨ c = Char.ofNat 10 ∨ c = Char.ofNat 13

/-- Skip insignificant whitespace before a token, as `JSON.parse` does. -/
def skipWs (s : List Char) : List Char :=
  s.dropWhile isJsonWs

/-- The value of a hexadecimal digit, as `JSON.parse` reads `\uXXXX`. -/
def hexVal (c : Char) : Option Nat :=
  if 48 ≤ c.toNat ∧ c.toNat ≤ 57 then some (c.toNat - 48)
  else if 97 ≤ c.toNat ∧ c.toNat ≤ 102 then some (c.toNat - 87)
  else if 65 ≤ c.toNat ∧ c.toNat ≤ 70 then some (c.toNat - 55)
  else none

/-- The single-character escapes of a JSON string. -/
def escDecode (e : Char) : Option Char :=
  if e = '"' then some '"'
  else if e = '\\' then some '\\'
  else if e = '/' then some '/'
  else if e = 'b' then some (Char.ofNat 8)
  else if e = 'f' then some (Char.ofNat 12)
  else if e = 'n' then some (Char.ofNat 10)
  else if e = 'r' then some (Char.ofNat 13)
  else if e = 't' then some (Char.ofNat 9)
  else none

/-- `JSON.parse`'s reading of a string body after the opening quote: literal
characters up to the closing quote, escapes decoded, raw control characters
rejected.  Returns the decoded characters and the remaining input. -/
def parseStrBody : List Char → Option (List Char × List Char)
  | [] => none
  | c :: rest =>
    if c = '"' then some ([], rest)
    else if c = '\\' then
      match rest with
      | [] => none
      | e :: rest2 =>
        if e = 'u' then
          match rest2 with
          | h1 :: h2 :: h3 :: h4 :: rest3 =>
            match hexVal h1, hexVal h2, hexVal h3, hexVal h4 with
            | some a, some b, some c2, some d =>
              (parseStrBody rest3).map
                (fun p => (Char.ofNat (((a * 16 + b) * 16 + c2) * 16 + d) :: p.1, p.2))
            | _, _, _, _ => none
          | _ => none
        else
          match escDecode e with
          | some d => (parseStrBody rest2).map (fun p => (d :: p.1, p.2))
          | none => none
    else if c.toNat < 32 then none
    else (parseStrBody rest).map (fun p => (c :: p.1, p.2))

/-- A JSON string literal: an opening quote then a string body. -/
def parseStr (s : List Char) : Option (List Char × List Char) :=
  match s with
  | c :: rest => if c = '"' then parseStrBody rest else none
  | [] => none

/-!  Termination facts for the member-list parsers, stated as `def`s so the
well-founded recursions below can use them.  -/

def skipWsLe (s : List Char) : (skipWs s).length ≤ s.length := by
  induction s with
  | nil => simp [skipWs]
  | cons c rest ih =>
    by_cases h : isJsonWs c = true
    · simp only [skipWs, List.dropWhile] at ih ⊢
      rw [h]
      simp only [List.length_cons]
      omega
    · simp only [skipWs, List.dropWhile] at ih ⊢
      rw [Bool.not_eq_true] at h
      rw [h]

def parseStrBodyLt :
    ∀ s v r, parseStrBody s = some (v, r) → r.length < s.length := by
  intro s
  induction s using parseStrBody.induct with
  | case1 =>
    intro v r h
    rw [parseStrBody.eq_def] at h
    cases h
  | case2 rest =>
    intro v r h
    rw [parseStrBody.eq_def] at h
    simp at h
    obtain ⟨h1, h2⟩ := h
    subst h2
    simp
  | case3 hne =>
    intro v r h
    rw [show parseStrBody ['\\'] = none from rfl] at h
    cases h
  | case4 h1 h2 h3 h4 rest3 a b c2 d hx4 hx3 hx2 hx1 hne ih =>
    intro v r h
    rw [parseStrBody.eq_def] at h
    simp [hx1, hx2, hx3, hx4] at h
    obtain ⟨v1, hrec, hval⟩ := h
    subst hval
    have := ih v1 r hrec
    simp only [List.length_cons]
    omega
  | case5 h1 h2 h3 h4 rest3 hfail hne =>
    intro v r h
    rw [parseStrBody.eq_def] at h
    simp at h
  | case6 rest hshape hne =>
    intro v r h
    rw [parseStrBody.eq_def] at h
    simp at h
  | case7 c rest hcu d hd hne ih =>
    intro v r h
    rw [parseStrBody.eq_def] at h
    simp [hcu, hd] at h
    obtain ⟨v1, hrec, hval⟩ := h
    subst hval
    have := ih v1 r hrec
    simp only [List.length_cons]
    omega
  | case8 c rest hcu hd hne =>
    intro v r h
    rw [parseStrBody.eq_def] at h
    simp [hcu, hd] at h
  | case9 c rest hq hb hctl =>
    intro v r h
    rw [parseStrBody.eq_def] at h
    simp [hq, hb, hctl] at h
  | case10 c rest hq hb hctl ih =>
    intro v r h
    rw [parseStrBody.eq_def] at h
    simp [hq, hb, hctl] at h
    obtain ⟨v1, hrec, hval⟩ := h
    subst hval
    have := ih v1 r hrec
    simp only [List.length_cons]
    omega

def parseStrLt :
    ∀ s v r, parseStr s = some (v, r) → r.length < s.length := by
  intro s v r h
  match s with
  | [] => exact absurd h (by simp [parseStr])
  | c :: rest =>
    simp only [parseStr] at h
    by_cases hc : c = '"'
    · rw [if_pos hc] at h
      have := parseStrBodyLt rest v r h
      simp only [List.length_cons]
      omega
    · rw [if_neg hc] at h
      cases h

/-- One `"key": "value"` member sequence of an inner (registry entry) object,
as `JSON.parse` reads it: string key, colon, string value, then either a
comma and further members or the closing brace. -/
def parseInnerMembers (s : List Char) : Option (List (String × String) × List Char) :=
  match h1 : parseStr (skipWs s) with
  | none => none
  | some (k, r1) =>
    match h2 : skipWs r1 with
    | [] => none
    | c0 :: r2 =>
      if c0 = ':' then
        match h3 : parseStr (skipWs r2) with
        | none => none
        | some (v, r3) =>
          match h4 : skipWs r3 with
          | [] => none
          | c1 :: r4 =>
            if c1 = ',' then
              match parseInnerMembers r4 with
              | some (rest, r5) => some ((String.mk k, String.mk v) :: rest, r5)
              | none => none
            else if c1 = rbrace then some ([(String.mk k, String.mk v)], r4)
            else none
      else none
termination_by s.length
decreasing_by
  have e1 := parseStrLt _ _ _ h1
  have e2 := skipWsLe s
  have e3 := congrArg List.length h2
  have e4 := skipWsLe r1
  have e5 := parseStrLt _ _ _ h3
  have e6 := skipWsLe r2
  have e7 := congrArg List.length h4
  have e8 := skipWsLe r3
  simp only [List.length_cons] at e3 e7
  omega

/-- An inner (registry entry) object: `{}` or `{ members }`. -/
def parseInnerObj (s : List Char) : Option (List (String × String) × List Char) :=
  match skipWs s with
  | [] => none
  | c :: r1 =>
    if c = lbrace then
      match skipWs r1 with
      | [] => none
      | c2 :: r2 => if c2 = rbrace then some ([], r2) else parseInnerMembers r1
    else none



def parseInnerMembersLtAux :
    ∀ n s v r, s.length ≤ n → parseInnerMembers s = some (v, r) → r.length < s.length := by
  intro n
  induction n with
  | zero =>
    intro s v r hlen h
    have hs : s = [] := List.length_eq_zero.mp (Nat.le_zero.mp hlen)
    subst hs
    rw [parseInnerMembers.eq_def] at h
    simp [skipWs, parseStr] at h
  | succ n ih =>
    intro s v r hlen h
    rw [parseInnerMembers.eq_def] at h
    split at h
    · cases h
    · rename_i k r1 h1
      have e1 := parseStrLt _ _ _ h1
      have e2 := skipWsLe s
      split at h
      · cases h
      · rename_i c0 r2 h2
        have e3 := congrArg List.length h2
        have e4 := skipWsLe r1
        simp only [List.length_cons] at e3
        split at h
        · split at h
          · cases h
          · rename_i hc0 v2 r3 h3
            have e5 := parseStrLt _ _ _ h3
            have e6 := skipWsLe r2
            split at h
            · cases h
            · rename_i c1 r4 h4
              have e7 := congrArg List.length h4
              have e8 := skipWsLe r3
              simp only [List.length_cons] at e7
              split at h
              · split at h
                · rename_i hcomma xopt rest r5 hrec
                  cases h
                  have := ih r4 rest r (by omega) hrec
                  omega
                · cases h
              · split at h
                · cases h
                  omega
                · cases h
        · cases h

def parseInnerMembersLt :
    ∀ s v r, parseInnerMembers s = some (v, r) → r.length < s.length := by
  intro s v r
  exact parseInnerMembersLtAux s.length s v r (Nat.le_refl _)

def parseInnerObjLt :
    ∀ s v r, parseInnerObj s = some (v, r) → r.length < s.length := by
  intro s v r h
  rw [parseInnerObj.eq_def] at h
  split at h
  · cases h
  · rename_i c r1 h1
    have e1 := congrArg List.length h1
    have e2 := skipWsLe s
    simp only [List.length_cons] at e1
    split at h
    · split at h
      · cases h
      · rename_i c2 r2 h2
        have e3 := congrArg List.length h2
        have e4 := skipWsLe r1
        simp only [List.length_cons] at e3
        split at h
        · cases h
          omega
        · have := parseInnerMembersLt _ _ _ h
          omega
    · cases h

/-- One `"componentName": { … }` member sequence of the top-level object, as
`JSON.parse` reads it: string key, colon, inner object value, then either a
comma and further members or the closing brace. -/
def parseTopMembers (s : List Char) :
    Option (List (String × List (String × String)) × List Char) :=
  match h1 : parseStr (skipWs s) with
  | none => none
  | some (k, r1) =>
    match h2 : skipWs r1 with
    | [] => none
    | c0 :: r2 =>
      if c0 = ':' then
        match h3 : parseInnerObj r2 with
        | none => none
        | some (v, r3) =>
          match h4 : skipWs r3 with
          | [] => none
          | c1 :: r4 =>
            if c1 = ',' then
              match parseTopMembers r4 with
              | some (rest, r5) => some ((String.mk k, v) :: rest, r5)
              | none => none
            else if c1 = rbrace then some ([(String.mk k, v)], r4)
            else none
      else none
termination_by s.length
decreasing_by
  have e1 := parseStrLt _ _ _ h1
  have e2 := skipWsLe s
  have e3 := congrArg List.length h2
  have e4 := skipWsLe r1
  have e5 := parseInnerObjLt _ _ _ h3
  have e6 := congrArg List.length h4
  have e7 := skipWsLe r3
  simp only [List.length_cons] at e3 e6
  omega

/-- The top-level metadata object: `{}` or `{ members }`. -/
def parseTopObj (s : List Char) :
    Option (List (String × List (String × String)) × List Char) :=
  match skipWs s with
  | [] => none
  | c :: r1 =>
    if c = lbrace then
      match skipWs r1 with
      | [] => none
      | c2 :: r2 => if c2 = rbrace then some ([], r2) else parseTopMembers r1
    else none

/-- Reading the three fields of a parsed registry entry object back into the
typed shape the TypeScript cast `JSON.parse(...) as ComponentMetadata`
promises.  A document written by `generateMetadataFile` always has exactly
these fields in this order. -/
def decodeEntry (fields : List (String × String)) : Option RegEntry :=
  match fields with
  | [(k1, a), (k2, b), (k3, c)] =>
    if k1 = "scriptFileName" then
      if k2 = "originalPath" then
        if k3 = "outputPath" then some ⟨a, b, c⟩ else none
      else none
    else none
  | _ => none

/-- Decode every member of the parsed top-level object. -/
def decodeEntries :
    List (String × List (String × String)) → Option (List (String × RegEntry))
  | [] => some []
  | (k, fs) :: rest =>
    match decodeEntry fs, decodeEntries rest with
    | some e, some r => some ((k, e) :: r)
    | _, _ => none

/-- `JSON.parse` of a metadata document (restricted to the grammar
`generateMetadataFile` emits: an object of objects of strings), followed by
the typed reading of its entries; `none` models a thrown `SyntaxError`.
`JSON.parse` also demands that only whitespace follows the closing brace. -/
def parseMetadataDoc (content : String) : Option (List (String × RegEntry)) :=
  match parseTopObj content.data with
  | some (entries, rest) =>
    match skipWs rest with
    | [] => decodeEntries entries
    | _ => none
  | none => none

/-- `ComponentResolver.loadMetadata`: read the metadata file and parse it;
any read error (`none` content) or parse failure is caught, logged and turned
into the empty registry. -/
def loadMetadata : Option String → List (String × RegEntry)
  | none => []
  | some content =>
    match parseMetadataDoc content with
    | some m => m
    | none => []

/-- The fields of one registry entry as its rendered JSON reads back. -/
def entryFields (e : RegEntry) : List (String × String) :=
  [("scriptFileName", e.scriptFileName), ("originalPath", e.originalPath),
    ("outputPath", e.outputPath)]

/-!  The registry round-trip: a document written by `generateMetadataFile`
reads back, through the modelled `JSON.parse` and the typed cast, as the
registry it was written from.  -/

theorem hexVal_hexDigitChar : ∀ n, n < 16 → hexVal (hexDigitChar n) = some n := by
  decide

theorem parseStrBody_escChar (c : Char) (rest : List Char) :
    parseStrBody (escChar c ++ rest) = (parseStrBody rest).map (fun p => (c :: p.1, p.2)) := by
  by_cases h1 : c = '"'
  · subst h1
    rw [show escChar '"' = ['\\', '"'] from by decide, parseStrBody.eq_def]
    simp [escDecode]
  by_cases h2 : c = '\\'
  · subst h2
    rw [show escChar '\\' = ['\\', '\\'] from by decide, parseStrBody.eq_def]
    simp [escDecode]
  by_cases h3 : c = Char.ofNat 8
  · subst h3
    rw [show escChar (Char.ofNat 8) = ['\\', 'b'] from by decide, parseStrBody.eq_def]
    simp [escDecode]
  by_cases h4 : c = Char.ofNat 9
  · subst h4
    rw [show escChar (Char.ofNat 9) = ['\\', 't'] from by decide, parseStrBody.eq_def]
    simp [escDecode]
  by_cases h5 : c = Char.ofNat 10
  · subst h5
    rw [show escChar (Char.ofNat 10) = ['\\', 'n'] from by decide, parseStrBody.eq_def]
    simp [escDecode]
  by_cases h6 : c = Char.ofNat 12
  · subst h6
    rw [show escChar (Char.ofNat 12) = ['\\', 'f'] from by decide, parseStrBody.eq_def]
    simp [escDecode]
  by_cases h7 : c = Char.ofNat 13
  · subst h7
    rw [show escChar (Char.ofNat 13) = ['\\', 'r'] from by decide, parseStrBody.eq_def]
    simp [escDecode]
  by_cases hctl : c.toNat < 32
  · have hesc : escChar c =
        ['\\', 'u', '0', '0', hexDigitChar (c.toNat / 16), hexDigitChar (c.toNat % 16)] := by
      simp only [escChar, if_neg h1, if_neg h2, if_neg h3, if_neg h4, if_neg h5, if_neg h6,
        if_neg h7, if_pos hctl]
    rw [hesc]
    have d1 := hexVal_hexDigitChar (c.toNat / 16) (by omega)
    have d2 := hexVal_hexDigitChar (c.toNat % 16) (by omega)
    rw [parseStrBody.eq_def]
    simp only [List.cons_append, List.nil_append]
    rw [if_neg (show ¬ ('\\' : Char) = '"' from by decide)]
    simp only [show hexVal '0' = some 0 from by decide, d1, d2]
    have hc : Char.ofNat (((0 * 16 + 0) * 16 + c.toNat / 16) * 16 + c.toNat % 16) = c := by
      rw [show ((0 * 16 + 0) * 16 + c.toNat / 16) * 16 + c.toNat % 16 = c.toNat from by omega,
        Char.ofNat_toNat]
    rw [hc]
    simp
  · have hesc : escChar c = [c] := by
      simp only [escChar, if_neg h1, if_neg h2, if_neg h3, if_neg h4, if_neg h5, if_neg h6,
        if_neg h7, if_neg hctl]
    rw [hesc]
    rw [parseStrBody.eq_def]
    simp only [List.cons_append, if_neg h1, if_neg h2, if_neg hctl, List.nil_append]

theorem parseStrBody_flatMap (s rest : List Char) :
    parseStrBody (s.flatMap escChar ++ '"' :: rest) = some (s, rest) := by
  induction s with
  | nil =>
    rw [show ([] : List Char).flatMap escChar ++ '"' :: rest = '"' :: rest from rfl,
      parseStrBody.eq_def]
    simp
  | cons c s ih =>
    rw [List.flatMap_cons, List.append_assoc, parseStrBody_escChar, ih]
    rfl

theorem parseStr_quoteL (s rest : List Char) :
    parseStr (quoteL s ++ rest) = some (s, rest) := by
  simp only [quoteL, List.cons_append, parseStr, reduceIte, List.append_assoc,
    List.singleton_append]
  exact parseStrBody_flatMap s rest

theorem skipWs_ws (c : Char) (t : List Char) (h : isJsonWs c = true) :
    skipWs (c :: t) = skipWs t := by
  simp [skipWs, List.dropWhile_cons, h]

theorem skipWs_not_ws (c : Char) (t : List Char) (h : isJsonWs c = false) :
    skipWs (c :: t) = c :: t := by
  simp [skipWs, List.dropWhile_cons, h]

theorem skipWs_quoteL (s t : List Char) : skipWs (quoteL s ++ t) = quoteL s ++ t := by
  simp only [quoteL, List.cons_append]
  exact skipWs_not_ws _ _ (by decide)

theorem quoteL_cons (s t : List Char) :
    quoteL s ++ t = '"' :: (s.flatMap escChar ++ ('"' :: t)) := by
  simp [quoteL]

theorem parseInnerMembers_field (k v : String) (t : List Char) :
    parseInnerMembers ('\n' :: ' ' :: ' ' :: ' ' :: ' ' ::
        (quoteL k.data ++ (':' :: ' ' :: (quoteL v.data ++ t)))) =
      (match skipWs t with
      | c1 :: r4 =>
        if c1 = ',' then
          match parseInnerMembers r4 with
          | some (rest, r5) => some ((k, v) :: rest, r5)
          | none => none
        else if c1 = rbrace then some ([(k, v)], r4)
        else none
      | [] => none) := by
  rw [parseInnerMembers.eq_def]
  rw [skipWs_ws _ _ (by decide), skipWs_ws _ _ (by decide), skipWs_ws _ _ (by decide),
    skipWs_ws _ _ (by decide), skipWs_ws _ _ (by decide), skipWs_quoteL, parseStr_quoteL]
  simp only
  rw [skipWs_not_ws ':' _ (by decide)]
  simp only [reduceIte]
  rw [skipWs_ws ' ' _ (by decide), skipWs_quoteL, parseStr_quoteL]
  simp only
  cases hsk : skipWs t <;> rfl

theorem parseInnerObj_quote (r1 q z : List Char) (h1 : skipWs r1 = quoteL q ++ z) :
    parseInnerObj (lbrace :: r1) = parseInnerMembers r1 := by
  rw [parseInnerObj.eq_def, skipWs_not_ws _ _ (by decide)]
  simp only [if_true]
  rw [h1, quoteL_cons]
  simp only
  rw [if_neg (show ¬ ('"' : Char) = rbrace from by decide)]

theorem parseInnerObj_entry (e : RegEntry) (rest : List Char) :
    parseInnerObj (entryJsonL e ++ rest) = some (entryFields e, rest) := by
  simp only [entryJsonL, fieldL, List.cons_append, List.append_assoc, List.nil_append]
  rw [parseInnerObj_quote _ "scriptFileName".data _ (by
    rw [skipWs_ws _ _ (by decide), skipWs_ws _ _ (by decide), skipWs_ws _ _ (by decide),
      skipWs_ws _ _ (by decide), skipWs_ws _ _ (by decide), skipWs_quoteL])]
  rw [parseInnerMembers_field]
  rw [skipWs_not_ws ',' _ (by decide)]
  simp only [reduceIte]
  rw [parseInnerMembers_field]
  rw [skipWs_not_ws ',' _ (by decide)]
  simp only [reduceIte]
  rw [parseInnerMembers_field]
  rw [skipWs_ws '\n' _ (by decide), skipWs_ws ' ' _ (by decide), skipWs_ws ' ' _ (by decide),
    skipWs_not_ws rbrace _ (by decide)]
  simp only
  rw [if_neg (show ¬ rbrace = ',' from by decide)]
  simp only [if_true]
  rfl

theorem parseInnerObj_ws (c : Char) (x : List Char) (h : isJsonWs c = true) :
    parseInnerObj (c :: x) = parseInnerObj x := by
  rw [parseInnerObj.eq_def, parseInnerObj.eq_def, skipWs_ws _ _ h]

theorem parseTopMembers_member (k : String) (e : RegEntry) (t : List Char) :
    parseTopMembers ('\n' :: ' ' :: ' ' ::
        (quoteL k.data ++ (':' :: ' ' :: (entryJsonL e ++ t)))) =
      (match skipWs t with
      | c1 :: r4 =>
        if c1 = ',' then
          match parseTopMembers r4 with
          | some (rest, r5) => some ((k, entryFields e) :: rest, r5)
          | none => none
        else if c1 = rbrace then some ([(k, entryFields e)], r4)
        else none
      | [] => none) := by
  rw [parseTopMembers.eq_def]
  rw [skipWs_ws _ _ (by decide), skipWs_ws _ _ (by decide), skipWs_ws _ _ (by decide),
    skipWs_quoteL, parseStr_quoteL]
  simp only
  rw [skipWs_not_ws ':' _ (by decide)]
  simp only [reduceIte]
  rw [parseInnerObj_ws _ _ (by decide), parseInnerObj_entry]
  simp only
  cases hsk : skipWs t <;> rfl

theorem parseTopMembers_membersL :
    ∀ (m : List (String × RegEntry)) (rest : List Char), m ≠ [] →
    parseTopMembers ('\n' :: (membersL m ++ ('\n' :: rbrace :: rest))) =
      some (m.map (fun kv => (kv.1, entryFields kv.2)), rest) := by
  intro m
  induction m with
  | nil => intro rest h; exact absurd rfl h
  | cons kv m' ih =>
    intro rest _
    cases m' with
    | nil =>
      simp only [membersL, memberL, List.cons_append, List.append_assoc, List.nil_append]
      rw [parseTopMembers_member]
      rw [skipWs_ws '\n' _ (by decide), skipWs_not_ws rbrace _ (by decide)]
      simp only
      rw [if_neg (show ¬ rbrace = ',' from by decide)]
      simp only [if_true]
      rfl
    | cons kv2 m'' =>
      simp only [membersL, memberL, List.cons_append, List.append_assoc, List.nil_append]
      rw [parseTopMembers_member]
      rw [skipWs_not_ws ',' _ (by decide)]
      simp only [reduceIte]
      rw [ih rest (by simp)]
      rfl

theorem parseTopObj_quote (r1 q z : List Char) (h1 : skipWs r1 = quoteL q ++ z) :
    parseTopObj (lbrace :: r1) = parseTopMembers r1 := by
  rw [parseTopObj.eq_def, skipWs_not_ws _ _ (by decide)]
  simp only [if_true]
  rw [h1, quoteL_cons]
  simp only
  rw [if_neg (show ¬ ('"' : Char) = rbrace from by decide)]

theorem decodeEntry_entryFields (e : RegEntry) : decodeEntry (entryFields e) = some e := rfl

theorem decodeEntries_map (m : List (String × RegEntry)) :
    decodeEntries (m.map (fun kv => (kv.1, entryFields kv.2))) = some m := by
  induction m with
  | nil => rfl
  | cons kv m' ih =>
    simp only [List.map_cons, decodeEntries, decodeEntry_entryFields, ih]

theorem parseMetadataDoc_roundtrip (m : List (String × RegEntry)) :
    parseMetadataDoc (generateMetadataFile m) = some m := by
  cases m with
  | nil => rfl
  | cons kv m' =>
    rw [parseMetadataDoc]
    rw [show (generateMetadataFile (kv :: m')).data =
      lbrace :: '\n' :: (membersL (kv :: m') ++ ('\n' :: rbrace :: [])) from by
        simp [generateMetadataFile, List.append_assoc]]
    cases m' with
    | nil =>
      rw [parseTopObj_quote _ kv.1.data _ (by
        simp only [membersL, memberL, List.cons_append, List.append_assoc, List.nil_append]
        rw [skipWs_ws _ _ (by decide), skipWs_ws _ _ (by decide), skipWs_ws _ _ (by decide),
          skipWs_quoteL])]
      rw [parseTopMembers_membersL (kv :: []) [] (by simp)]
      simp only [skipWs, List.dropWhile_nil]
      exact decodeEntries_map _
    | cons kv2 m'' =>
      rw [parseTopObj_quote _ kv.1.data _ (by
        simp only [membersL, memberL, List.cons_append, List.append_assoc, List.nil_append]
        rw [skipWs_ws _ _ (by decide), skipWs_ws _ _ (by decide), skipWs_ws _ _ (by decide),
          skipWs_quoteL])]
      rw [parseTopMembers_membersL (kv :: kv2 :: m'') [] (by simp)]
      simp only [skipWs, List.dropWhile_nil]
      exact decodeEntries_map _

theorem loadMetadata_roundtrip (m : List (String × RegEntry)) :
    loadMetadata (some (generateMetadataFile m)) = m := by
  rw [loadMetadata, parseMetadataDoc_roundtrip]

/-!  Concrete instances used by the witnesses and counterexamples.  -/

/-- A configuration like the repository's own usage: watch the project root
for `*.page.tsx` files, bundle into `./public/js`, persist the registry at
`./build/metadata.json`. -/
def cfgEx : PageBuildConfig :=
  ⟨".", "page.tsx", "./public/js", "./build/metadata.json"⟩

/-- The registry entry of `user/register.page.tsx`. -/
def entryEx : RegEntry :=
  ⟨"register.page.js", "user/register.page.tsx", "./public/js/user/register.page.js"⟩

/-- State with `RegisterPage` registered and the lock for
`user/register.page.tsx` held by an in-flight rebuild. -/
def sLockedEx : WState :=
  ⟨[("RegisterPage", entryEx)], ["user/register.page.tsx"]⟩

/-- The same registry with no lock held. -/
def sUnlockedEx : WState :=
  ⟨[("RegisterPage", entryEx)], []⟩

/-- A watch event environment for a deleted file. -/
def envDeleteEx : WatchEnv := ⟨none, true, none⟩

/-- A watch event environment for an existing regular file whose build
succeeds. -/
def envFileEx : WatchEnv := ⟨some ⟨false⟩, true, none⟩

/-- A watch event environment for an existing regular file whose build
fails. -/
def envFileFailEx : WatchEnv := ⟨some ⟨false⟩, false, none⟩

/-- A two-entry registry. -/
def mRoundEx : List (String × RegEntry) :=
  [("RegisterPage", entryEx),
   ("LoginPage", ⟨"login.page.js", "login.page.tsx", "./public/js/login.page.js"⟩)]

/-- C1 (amended): the runtime lookup `resolveScriptPath(componentName,
metadataPath)` supports only the strict behaviour.  For every component name
absent from the loaded registry it throws an error whose message names the
component (the registry loader already degrades I/O failures to an empty
registry, so this error is distinct from a generic I/O error); for every name
present it returns that entry's `scriptFileName`.  The function has no
`strict` parameter and no naming-convention fallback. -/
theorem claim_C1_resolve_strict :
    ∀ (componentName : String) (metadata : List (String × RegEntry)),
      (lookupMeta componentName metadata = none →
        resolveScriptPath componentName metadata =
          Except.error (resolveErrorMessage componentName) ∧
        componentName.data <:+: (resolveErrorMessage componentName).data) ∧
      (∀ e, lookupMeta componentName metadata = some e →
        resolveScriptPath componentName metadata = Except.ok e.scriptFileName) := by
  intro c md
  constructor
  · intro h
    constructor
    · rw [resolveScriptPath, h]
    · refine ⟨("コンポーネント \"" : String).data,
        ("\" のメタデータが見つかりません。ビルドが完了していることを確認してください。" : String).data, ?_⟩
      rw [resolveErrorMessage]
      simp [String.data_append, List.append_assoc]
  · intro e h
    rw [resolveScriptPath, h]

/-- C1 counterexample: at the concrete missing component `RegisterPage`, the
resolver returns an error — it does not return the naming-convention
fallback `toScriptFileName(componentName) + '.page.js'` that the claim
promises for `strict=false`, because no non-strict mode exists. -/
theorem claim_C1_counterexample :
    (resolveScriptPath "RegisterPage" []).isOk = false ∧
    resolveScriptPath "RegisterPage" [] =
      Except.error (resolveErrorMessage "RegisterPage") := by
  exact ⟨rfl, rfl⟩

/-- C1 witness: the amended theorem applied at `RegisterPage` against the
empty registry (absent: error) and against a registry holding it (present:
its `scriptFileName`). -/
theorem claim_C1_witness :
    resolveScriptPath "RegisterPage" [] =
      Except.error (resolveErrorMessage "RegisterPage") ∧
    resolveScriptPath "RegisterPage" mRoundEx = Except.ok entryEx.scriptFileName := by
  exact ⟨((claim_C1_resolve_strict "RegisterPage" []).1 (by decide)).1,
    (claim_C1_resolve_strict "RegisterPage" mRoundEx).2 entryEx (by decide)⟩

/-- C2 (amended): a deletion event for a file whose per-file lock is held by
an in-flight rebuild does not remove the registry entry — the handler drops
the event at the lock check, leaving registry, lock map and effects
untouched, and nothing queues it for later.  The entry is removed (and the
registry persisted) only when a deletion event for that file is delivered
while its lock is free. -/
theorem claim_C2_locked_deletion :
    ∀ (cfg : PageBuildConfig) (env : WatchEnv) (s : WState) (et f : String),
      (s.locks.contains f = true →
        handleEvent cfg env s et (some f) = (s, [], false)) ∧
      (∀ e, s.locks.contains f = false → env.stat = none →
        endsWithStr f cfg.buildTargetFileSuffix = true →
        lookupMeta (extractComponentName (joinPath cfg.buildTargetDir f)) s.metadata = some e →
        handleEvent cfg env s et (some f) =
          (⟨eraseMeta (extractComponentName (joinPath cfg.buildTargetDir f)) s.metadata,
              s.locks⟩,
            FsAction.persistMetadata
              (eraseMeta (extractComponentName (joinPath cfg.buildTargetDir f)) s.metadata)
              cfg.metadataPath ::
              deleteBuildedPageJsFile env.outStat (joinPath cfg.buildTargetDir f)
                cfg.buildTargetFileSuffix cfg.outputDir,
            false)) := by
  intro cfg env s et f
  constructor
  · intro h
    have hm : f ∈ s.locks := by simpa using h
    simp [handleEvent, hm]
  · intro e h1 h2 h3 h4
    have hm : f ∉ s.locks := by simpa using h1
    simp [handleEvent, hm, h2, h3, h4, List.erase_cons_head]

/-- C2 witness: the amended theorem at the concrete scenario of the spec —
deleting `user/register.page.tsx` while locked (event dropped) and while
unlocked (entry removed and persisted). -/
theorem claim_C2_witness :
    handleEvent cfgEx envDeleteEx sLockedEx "rename" (some "user/register.page.tsx") =
      (sLockedEx, [], false) ∧
    handleEvent cfgEx envDeleteEx sUnlockedEx "rename" (some "user/register.page.tsx") =
      (⟨eraseMeta (extractComponentName (joinPath cfgEx.buildTargetDir "user/register.page.tsx"))
          sUnlockedEx.metadata, sUnlockedEx.locks⟩,
        FsAction.persistMetadata
          (eraseMeta (extractComponentName (joinPath cfgEx.buildTargetDir "user/register.page.tsx"))
            sUnlockedEx.metadata) cfgEx.metadataPath ::
          deleteBuildedPageJsFile envDeleteEx.outStat
            (joinPath cfgEx.buildTargetDir "user/register.page.tsx")
            cfgEx.buildTargetFileSuffix cfgEx.outputDir,
        false) := by
  exact ⟨(claim_C2_locked_deletion cfgEx envDeleteEx sLockedEx "rename"
      "user/register.page.tsx").1 (by decide),
    (claim_C2_locked_deletion cfgEx envDeleteEx sUnlockedEx "rename"
      "user/register.page.tsx").2 entryEx (by decide) rfl (by decide) (by decide)⟩

/-- C2 counterexample: deleting `user/register.page.tsx` while its lock is
held leaves the state unchanged with an empty action trace, and after the
in-flight rebuild releases the lock the `RegisterPage` entry is still in the
registry — the dropped deletion event is never processed, contradicting the
claim that the deletion is still processed after the release. -/
theorem claim_C2_counterexample :
    handleEvent cfgEx envDeleteEx sLockedEx "rename" (some "user/register.page.tsx") =
      (sLockedEx, [], false) ∧
    lookupMeta "RegisterPage"
      (releaseLock "user/register.page.tsx"
        (handleEvent cfgEx envDeleteEx sLockedEx "rename"
          (some "user/register.page.tsx")).1).metadata = some entryEx := by
  exact ⟨by decide, by decide⟩

/-- C3 (amended): classification ignores `eventType`.  For every watch event
whose path stats as a regular file with a name ending in the configured
suffix, `isBuild` returns `true` even for `eventType = "rename"`, and the
handler's first effect is the bundler invocation. -/
theorem claim_C3_rename_builds :
    ∀ (cfg : PageBuildConfig) (env : WatchEnv) (s : WState) (f : String) (st : Stats),
      s.locks.contains f = false →
      env.stat = some st → st.isDirectory = false →
      endsWithStr f cfg.buildTargetFileSuffix = true →
      isBuild "rename" f (some st) cfg.buildTargetFileSuffix = true ∧
      (handleEvent cfg env s "rename" (some f)).2.1.head? =
        some (FsAction.invokeBundler
          (toOutFile cfg.outputDir (joinPath cfg.buildTargetDir f) cfg.buildTargetFileSuffix)
          (importPathOf (joinPath cfg.buildTargetDir f))) := by
  intro cfg env s f st hc hstat hdir hends
  have hib : isBuild "rename" f (some st) cfg.buildTargetFileSuffix = true := by
    simp [isBuild, hdir, hends]
  refine ⟨hib, ?_⟩
  have hm : f ∉ s.locks := by simpa using hc
  by_cases hb : env.buildOk = true
  · cases hlook : lookupMeta (extractComponentName (joinPath cfg.buildTargetDir f)) s.metadata with
    | none => simp [handleEvent, hm, hstat, hib, hb, hlook]
    | some e => simp [handleEvent, hm, hstat, hib, hb, hlook]
  · simp [handleEvent, hm, hstat, hib, hb]

/-- C3 counterexample: a `rename` event for the existing regular file
`a.page.tsx` invokes the bundler and mutates the registry — the ignore
branch the claim demands is not taken. -/
theorem claim_C3_counterexample :
    isBuild "rename" "a.page.tsx" (some ⟨false⟩) "page.tsx" = true ∧
    (handleEvent cfgEx envFileEx ⟨[], []⟩ "rename" (some "a.page.tsx")).2.1 ≠ [] ∧
    (handleEvent cfgEx envFileEx ⟨[], []⟩ "rename" (some "a.page.tsx")).2.1.head? =
      some (FsAction.invokeBundler "./public/js/a.page.js" "./a.page.tsx") ∧
    (handleEvent cfgEx envFileEx ⟨[], []⟩ "rename" (some "a.page.tsx")).1.metadata ≠ [] := by
  exact ⟨by decide, by decide, by decide, by decide⟩

/-- C3 witness: the amended theorem at the concrete `rename` event for
`a.page.tsx`. -/
theorem claim_C3_witness :
    isBuild "rename" "a.page.tsx" (some ⟨false⟩) cfgEx.buildTargetFileSuffix = true ∧
    (handleEvent cfgEx envFileEx sUnlockedEx "rename" (some "a.page.tsx")).2.1.head? =
      some (FsAction.invokeBundler
        (toOutFile cfgEx.outputDir (joinPath cfgEx.buildTargetDir "a.page.tsx")
          cfgEx.buildTargetFileSuffix)
        (importPathOf (joinPath cfgEx.buildTargetDir "a.page.tsx"))) := by
  exact claim_C3_rename_builds cfgEx envFileEx sUnlockedEx "a.page.tsx" ⟨false⟩
    (by decide) rfl rfl (by decide)

theorem mem_of_mem_replaceFirstL (pat : List Char) :
    ∀ s a, a ∈ replaceFirstL pat s → a ∈ s := by
  intro s
  induction s with
  | nil => intro a h; simp [replaceFirstL] at h
  | cons c rest ih =>
    intro a h
    rw [replaceFirstL] at h
    split at h
    · exact List.mem_of_mem_drop h
    · rcases List.mem_cons.mp h with h' | h'
      · exact h' ▸ List.mem_cons_self c rest
      · exact List.mem_cons_of_mem c (ih a h')

theorem mem_replaceFirstL_of_not_mem (pat : List Char) :
    ∀ s a, a ∈ s → a ∉ pat → a ∈ replaceFirstL pat s := by
  intro s
  induction s with
  | nil => intro a h _; simp at h
  | cons c rest ih =>
    intro a h hnp
    rw [replaceFirstL]
    split
    · rename_i hpre
      obtain ⟨t, ht⟩ := List.isPrefixOf_iff_prefix.mp hpre
      have hd : (c :: rest).drop pat.length = t := by
        rw [← ht, List.drop_left]
      rw [hd]
      have : a ∈ pat ++ t := ht ▸ h
      rcases List.mem_append.mp this with h' | h'
      · exact absurd h' hnp
      · exact h'
    · rcases List.mem_cons.mp h with h' | h'
      · exact h' ▸ List.mem_cons_self c _
      · exact List.mem_cons_of_mem c (ih a h' hnp)

theorem basenameL_no_slash (s : List Char) : '/' ∉ basenameL s := by
  intro h
  rw [basenameL] at h
  rw [List.mem_reverse] at h
  have := List.mem_takeWhile_imp h
  simp at this

/-- C4: `toOutFile` writes the bundle to the flat path
`outputDir + '/' + (basename with the first occurrence of the suffix
removed) + 'page.js'`; for every source file whose normalised relative path
is nested (contains a slash), this differs from the directory-preserving
`toScriptPath` recorded as the registry entry's `outputPath`; and two source
files with equal base names bundle to the same output file. -/
theorem claim_C4_flat_output :
    ∀ (outputDir p suffix : String),
      toOutFile outputDir p suffix =
        outputDir ++ "/" ++ replaceFirstStr suffix (basename p) ++ "page.js" ∧
      (('/' ∉ suffix.data) → ('/' ∈ (relativeFromDot p).data) →
        toOutFile outputDir p suffix ≠ toScriptPath outputDir p suffix) ∧
      (∀ q, basename p = basename q →
        toOutFile outputDir p suffix = toOutFile outputDir q suffix) := by
  intro od p sfx
  refine ⟨rfl, ?_, ?_⟩
  · intro hsf hrel heq
    have hd := congrArg String.data heq
    simp only [toOutFile, toScriptPath, String.data_append, List.append_assoc] at hd
    have hd2 := List.append_cancel_left hd
    have hd3 := List.append_cancel_left hd2
    have hd4 := List.append_cancel_right hd3
    have h1 : '/' ∉ (replaceFirstStr sfx (basename p)).data := by
      intro hmem
      exact basenameL_no_slash p.data (mem_of_mem_replaceFirstL sfx.data (basename p).data '/' hmem)
    have h2 : '/' ∈ (replaceFirstStr sfx (relativeFromDot p)).data :=
      mem_replaceFirstL_of_not_mem sfx.data (relativeFromDot p).data '/' hrel hsf
    rw [hd4] at h1
    exact h1 h2
  · intro q h
    rw [toOutFile, toOutFile, h]

/-- C4 witness: the theorem at `user/register.page.tsx` and
`video/register.page.tsx` with suffix `page.tsx` under `./public/js`. -/
theorem claim_C4_witness :
    toOutFile "./public/js" "user/register.page.tsx" "page.tsx" =
      "./public/js" ++ "/" ++
        replaceFirstStr "page.tsx" (basename "user/register.page.tsx") ++ "page.js" ∧
    toOutFile "./public/js" "user/register.page.tsx" "page.tsx" ≠
      toScriptPath "./public/js" "user/register.page.tsx" "page.tsx" ∧
    toOutFile "./public/js" "user/register.page.tsx" "page.tsx" =
      toOutFile "./public/js" "video/register.page.tsx" "page.tsx" := by
  exact ⟨(claim_C4_flat_output "./public/js" "user/register.page.tsx" "page.tsx").1,
    (claim_C4_flat_output "./public/js" "user/register.page.tsx" "page.tsx").2.1
      (by decide) (by decide),
    (claim_C4_flat_output "./public/js" "user/register.page.tsx" "page.tsx").2.2
      "video/register.page.tsx" (by decide)⟩

/-- C5 (amended): `extractComponentName` strips the hardcoded
`.page.tsx`/`.page.ts` pattern, not the configured suffix; when the
configured suffix is `.page.tsx` the result equals the reference
computation of the claim, the result depends only on `basename(p)`, and
`user-profile.page.tsx` yields `UserProfilePage`. -/
theorem claim_C5_extract_component_name :
    (∀ p : String, endsWithStr (basename p) ".page.tsx" = true →
      extractComponentName p = specComponentName p ".page.tsx") ∧
    (∀ p q : String, basename p = basename q →
      extractComponentName p = extractComponentName q) ∧
    extractComponentName "user-profile.page.tsx" = "UserProfilePage" := by
  refine ⟨?_, ?_, by decide⟩
  · intro p h
    rw [extractComponentName, specComponentName, stripPageExt, if_pos h]
    simp only [if_pos h]
    rw [show (".page.tsx" : String).length = 9 from rfl]
  · intro p q h
    rw [extractComponentName, extractComponentName, h]

/-- C5 counterexample: with configured suffix `.tsx` (which
`user-profile.page.tsx` ends in), the reference computation yields
`UserProfilePagePage` while the code yields `UserProfilePage` — the claim's
equality fails for suffixes other than the hardcoded pattern. -/
theorem claim_C5_counterexample :
    endsWithStr (basename "user-profile.page.tsx") ".tsx" = true ∧
    extractComponentName "user-profile.page.tsx" = "UserProfilePage" ∧
    specComponentName "user-profile.page.tsx" ".tsx" = "UserProfilePagePage" ∧
    extractComponentName "user-profile.page.tsx" ≠
      specComponentName "user-profile.page.tsx" ".tsx" := by
  exact ⟨by decide, by decide, by decide, by decide⟩

/-- C5 witness: the amended theorem at `x/user-profile.page.tsx` with suffix
`.page.tsx`, and basename-only dependence at two directories sharing
`settings.page.tsx`. -/
theorem claim_C5_witness :
    extractComponentName "x/user-profile.page.tsx" =
      specComponentName "x/user-profile.page.tsx" ".page.tsx" ∧
    extractComponentName "a/settings.page.tsx" = extractComponentName "b/settings.page.tsx" := by
  exact ⟨claim_C5_extract_component_name.1 "x/user-profile.page.tsx" (by decide),
    claim_C5_extract_component_name.2.1 "a/settings.page.tsx" "b/settings.page.tsx" (by decide)⟩

theorem not_prefixOf_slash_cons (pat f : List Char) (hp : pat ≠ []) (hs : '/' ∉ pat) :
    pat.isPrefixOf ('/' :: f) = false := by
  cases hpat : pat with
  | nil => exact absurd hpat hp
  | cons p0 pr =>
    by_cases hb : (p0 :: pr).isPrefixOf ('/' :: f) = true
    · obtain ⟨t, ht⟩ := List.isPrefixOf_iff_prefix.mp hb
      have hp0 : p0 = '/' := by
        have := congrArg (fun l => l.head?) ht
        simpa using this
      rw [hpat, hp0] at hs
      exact absurd (List.mem_cons_self _ _) hs
    · simp only [Bool.not_eq_true] at hb
      exact hb

theorem replaceFirstL_append_slash (pat : List Char) (hp : pat ≠ []) (hs : '/' ∉ pat) :
    ∀ d f, ¬ (pat <:+: d) →
      replaceFirstL pat (d ++ '/' :: f) = d ++ '/' :: replaceFirstL pat f := by
  intro d
  induction d with
  | nil =>
    intro f _
    simp only [List.nil_append]
    rw [replaceFirstL, if_neg (by rw [not_prefixOf_slash_cons pat f hp hs]; simp)]
  | cons c d' ih =>
    intro f hinf
    simp only [List.cons_append]
    rw [replaceFirstL]
    have hnp : ¬ pat.isPrefixOf (c :: (d' ++ '/' :: f)) = true := by
      intro hb
      have hpre := List.isPrefixOf_iff_prefix.mp hb
      by_cases hlen : pat.length ≤ (c :: d').length
      · have h1 : pat <+: c :: d' := by
          refine List.prefix_of_prefix_length_le ?_ (List.prefix_append (c :: d') ('/' :: f)) hlen
          simpa using hpre
        exact hinf h1.isInfix
      · have hlt : (c :: d').length < pat.length := by omega
        obtain ⟨t, ht⟩ := hpre
        have ht' : (c :: d') ++ '/' :: f = pat ++ t := by
          rw [ht]
          simp
        have hdrop := congrArg (List.drop (c :: d').length) ht'
        rw [List.drop_left, List.drop_append_eq_append_drop,
          Nat.sub_eq_zero_of_le (Nat.le_of_lt hlt), List.drop_zero] at hdrop
        cases hpd : pat.drop (c :: d').length with
        | nil =>
          have hl := congrArg List.length hpd
          simp only [List.length_drop, List.length_nil, List.length_cons] at hl hlt
          omega
        | cons p0 pr =>
          rw [hpd] at hdrop
          have hp0 : p0 = '/' := by
            have hh := congrArg List.head? hdrop
            simpa using hh.symm
          exact hs (hp0 ▸ List.mem_of_mem_drop (hpd ▸ List.mem_cons_self p0 pr))
    rw [if_neg hnp]
    have hinf' : ¬ pat <:+: d' := fun h => hinf (List.infix_cons h)
    rw [ih f hinf']

/-- C6: `toScriptPath` preserves the full relative directory structure —
for `a/b/file.page.tsx` (configured suffix `page.tsx`, so that stripping it
and appending `page.js` produces `.page.js` names) the output under
`outputDir` is `outputDir/a/b/file.page.js`; in general, when the suffix is
slash-free and does not occur in the directory part, the directory part is
carried into the output path unchanged. -/
theorem claim_C6_dirs_preserved :
    (∀ outputDir : String,
      toScriptPath outputDir "a/b/file.page.tsx" "page.tsx" =
        outputDir ++ "/a/b/file.page.js") ∧
    (∀ (outputDir d f sfx : String), sfx.data ≠ [] → '/' ∉ sfx.data →
      ¬ (sfx.data <:+: d.data) →
      relativeFromDot (d ++ "/" ++ f) = d ++ "/" ++ f →
      toScriptPath outputDir (d ++ "/" ++ f) sfx =
        outputDir ++ "/" ++ d ++ "/" ++ replaceFirstStr sfx f ++ "page.js") := by
  constructor
  · intro od
    rw [toScriptPath,
      show replaceFirstStr "page.tsx" (relativeFromDot "a/b/file.page.tsx") = "a/b/file."
        from by decide,
      String.append_assoc, String.append_assoc]
    exact congrArg (fun t => od ++ t) (by decide)
  · intro od d f sfx hne hnos hninf hfix
    rw [toScriptPath, hfix]
    have hdata : (d ++ "/" ++ f).data = d.data ++ '/' :: f.data := by
      simp [String.data_append]
    have hkey : replaceFirstStr sfx (d ++ "/" ++ f) = d ++ "/" ++ replaceFirstStr sfx f := by
      apply String.ext
      show replaceFirstL sfx.data (d ++ "/" ++ f).data = _
      rw [hdata, replaceFirstL_append_slash sfx.data hne hnos d.data f.data hninf]
      simp [String.data_append, replaceFirstStr]
    rw [hkey]
    simp [String.append_assoc]

/-- C6 witness: both parts of the theorem at the claim's own example path
under `./public/js`. -/
theorem claim_C6_witness :
    toScriptPath "./public/js" "a/b/file.page.tsx" "page.tsx" =
      "./public/js" ++ "/a/b/file.page.js" ∧
    toScriptPath "./public/js" ("a" ++ "/" ++ "b/file.page.tsx") "page.tsx" =
      "./public/js" ++ "/" ++ "a" ++ "/" ++ replaceFirstStr "page.tsx" "b/file.page.tsx" ++
        "page.js" := by
  exact ⟨claim_C6_dirs_preserved.1 "./public/js",
    claim_C6_dirs_preserved.2 "./public/js" "a" "b/file.page.tsx" "page.tsx"
      (by decide) (by decide) (by decide) (by decide)⟩

/-- C7: when the build branch's bundler invocation fails, the handler's
state is returned unchanged (no registry entry added), no registry
persistence happens (the only effect is the failed bundler call), the error
propagates (`true` flag) — and the lock is still released. -/
theorem claim_C7_build_failure :
    ∀ (cfg : PageBuildConfig) (env : WatchEnv) (s : WState) (et f : String) (st : Stats),
      s.locks.contains f = false → env.stat = some st → st.isDirectory = false →
      endsWithStr f cfg.buildTargetFileSuffix = true → env.buildOk = false →
      handleEvent cfg env s et (some f) =
        (s, [FsAction.invokeBundler
            (toOutFile cfg.outputDir (joinPath cfg.buildTargetDir f) cfg.buildTargetFileSuffix)
            (importPathOf (joinPath cfg.buildTargetDir f))], true) ∧
      persistsOf (handleEvent cfg env s et (some f)).2.1 = [] := by
  intro cfg env s et f st hc hstat hdir hends hfail
  have hm : f ∉ s.locks := by simpa using hc
  have hib : isBuild et f (some st) cfg.buildTargetFileSuffix = true := by
    simp [isBuild, hdir, hends]
  have h : handleEvent cfg env s et (some f) =
      (s, [FsAction.invokeBundler
        (toOutFile cfg.outputDir (joinPath cfg.buildTargetDir f) cfg.buildTargetFileSuffix)
        (importPathOf (joinPath cfg.buildTargetDir f))], true) := by
    simp [handleEvent, hm, hstat, hib, hfail, List.erase_cons_head]
  exact ⟨h, by rw [h]; rfl⟩

/-- C7 witness: the theorem at a failing build of `a.page.tsx`. -/
theorem claim_C7_witness :
    handleEvent cfgEx envFileFailEx sUnlockedEx "change" (some "a.page.tsx") =
      (sUnlockedEx, [FsAction.invokeBundler
        (toOutFile cfgEx.outputDir (joinPath cfgEx.buildTargetDir "a.page.tsx")
          cfgEx.buildTargetFileSuffix)
        (importPathOf (joinPath cfgEx.buildTargetDir "a.page.tsx"))], true) ∧
    persistsOf (handleEvent cfgEx envFileFailEx sUnlockedEx "change" (some "a.page.tsx")).2.1 =
      [] := by
  exact claim_C7_build_failure cfgEx envFileFailEx sUnlockedEx "change" "a.page.tsx" ⟨false⟩
    (by decide) rfl rfl (by decide) rfl

/-- C8: the per-file lock is released on every exit path of the handler —
for every environment (including bundler failure) the lock map after the
event equals the lock map before it, so a subsequent event for the same file
can acquire the lock again; and while the lock is held, an event for that
file performs no build at all (single flight). -/
theorem claim_C8_lock_released :
    ∀ (cfg : PageBuildConfig) (env : WatchEnv) (s : WState) (et f : String),
      ((handleEvent cfg env s et (some f)).1.locks = s.locks) ∧
      (s.locks.contains f = true →
        handleEvent cfg env s et (some f) = (s, [], false) ∧
        buildsOf (handleEvent cfg env s et (some f)).2.1 = []) := by
  intro cfg env s et f
  have hdrop : s.locks.contains f = true → handleEvent cfg env s et (some f) = (s, [], false) := by
    intro h
    have hm : f ∈ s.locks := by simpa using h
    simp [handleEvent, hm]
  constructor
  · by_cases hc : s.locks.contains f = true
    · rw [hdrop hc]
    · have hm : f ∉ s.locks := by
        simp only [Bool.not_eq_true] at hc
        simpa using hc
      cases hstat : env.stat with
      | none => simp [handleEvent, hm, hstat, List.erase_cons_head]
      | some st =>
        by_cases hib : isBuild et f (some st) cfg.buildTargetFileSuffix = true
        · by_cases hb : env.buildOk = true
          · cases hlook : lookupMeta (extractComponentName (joinPath cfg.buildTargetDir f))
                s.metadata with
            | none => simp [handleEvent, hm, hstat, hib, hb, hlook, List.erase_cons_head]
            | some e => simp [handleEvent, hm, hstat, hib, hb, hlook, List.erase_cons_head]
          · simp [handleEvent, hm, hstat, hib, hb, List.erase_cons_head]
        · simp [handleEvent, hm, hstat, hib, List.erase_cons_head]
  · intro h
    refine ⟨hdrop h, ?_⟩
    rw [hdrop h]
    rfl

/-- C8 witness: lock preservation at a failing build, and the single-flight
drop at a locked file. -/
theorem claim_C8_witness :
    (handleEvent cfgEx envFileFailEx sLockedEx "change" (some "a.page.tsx")).1.locks =
      sLockedEx.locks ∧
    handleEvent cfgEx envFileEx sLockedEx "change" (some "user/register.page.tsx") =
      (sLockedEx, [], false) := by
  exact ⟨(claim_C8_lock_released cfgEx envFileFailEx sLockedEx "change" "a.page.tsx").1,
    ((claim_C8_lock_released cfgEx envFileEx sLockedEx "change"
      "user/register.page.tsx").2 (by decide)).1⟩

/-- C9: a build-branch event for a file whose derived component name is
already registered rebuilds the bundle (the bundler action) but leaves the
whole state — in particular the existing entry with all its fields —
unchanged, and triggers no registry persistence. -/
theorem claim_C9_existing_entry_unchanged :
    ∀ (cfg : PageBuildConfig) (env : WatchEnv) (s : WState) (et f : String) (st : Stats)
      (e : RegEntry),
      s.locks.contains f = false → env.stat = some st → st.isDirectory = false →
      endsWithStr f cfg.buildTargetFileSuffix = true → env.buildOk = true →
      lookupMeta (extractComponentName (joinPath cfg.buildTargetDir f)) s.metadata = some e →
      handleEvent cfg env s et (some f) =
        (s, [FsAction.invokeBundler
            (toOutFile cfg.outputDir (joinPath cfg.buildTargetDir f) cfg.buildTargetFileSuffix)
            (importPathOf (joinPath cfg.buildTargetDir f))], false) ∧
      lookupMeta (extractComponentName (joinPath cfg.buildTargetDir f))
        (handleEvent cfg env s et (some f)).1.metadata = some e ∧
      persistsOf (handleEvent cfg env s et (some f)).2.1 = [] := by
  intro cfg env s et f st e hc hstat hdir hends hb hlook
  have hm : f ∉ s.locks := by simpa using hc
  have hib : isBuild et f (some st) cfg.buildTargetFileSuffix = true := by
    simp [isBuild, hdir, hends]
  have h : handleEvent cfg env s et (some f) =
      (s, [FsAction.invokeBundler
        (toOutFile cfg.outputDir (joinPath cfg.buildTargetDir f) cfg.buildTargetFileSuffix)
        (importPathOf (joinPath cfg.buildTargetDir f))], false) := by
    simp [handleEvent, hm, hstat, hib, hb, hlook, List.erase_cons_head]
  refine ⟨h, ?_, ?_⟩
  · rw [h]
    exact hlook
  · rw [h]
    rfl

/-- C9 witness: the theorem at a modification of the registered
`user/register.page.tsx`. -/
theorem claim_C9_witness :
    handleEvent cfgEx envFileEx sUnlockedEx "change" (some "user/register.page.tsx") =
      (sUnlockedEx, [FsAction.invokeBundler
        (toOutFile cfgEx.outputDir (joinPath cfgEx.buildTargetDir "user/register.page.tsx")
          cfgEx.buildTargetFileSuffix)
        (importPathOf (joinPath cfgEx.buildTargetDir "user/register.page.tsx"))], false) ∧
    lookupMeta (extractComponentName (joinPath cfgEx.buildTargetDir "user/register.page.tsx"))
      (handleEvent cfgEx envFileEx sUnlockedEx "change"
        (some "user/register.page.tsx")).1.metadata = some entryEx ∧
    persistsOf (handleEvent cfgEx envFileEx sUnlockedEx "change"
      (some "user/register.page.tsx")).2.1 = [] := by
  exact claim_C9_existing_entry_unchanged cfgEx envFileEx sUnlockedEx "change"
    "user/register.page.tsx" ⟨false⟩ entryEx (by decide) rfl rfl (by decide) rfl (by decide)

/-- C10: registry round-trip — writing any metadata mapping with
`generateMetadataFile` and loading it back with
`ComponentResolver.loadMetadata` yields an equal mapping.  (The key-nodup
hypothesis states that the written value is a JavaScript object, which
cannot hold a duplicate key.) -/
theorem claim_C10_registry_roundtrip :
    ∀ m : List (String × RegEntry), (m.map Prod.fst).Nodup →
      loadMetadata (some (generateMetadataFile m)) = m := by
  intro m _
  exact loadMetadata_roundtrip m

/-- C10 witness: the round-trip at a concrete two-entry registry. -/
theorem claim_C10_witness :
    (mRoundEx.map Prod.fst).Nodup ∧
    loadMetadata (some (generateMetadataFile mRoundEx)) = mRoundEx := by
  exact ⟨by decide, claim_C10_registry_roundtrip mRoundEx (by decide)⟩
